import Mathlib

/-!
Shallow embedding of the storage engine of the fault-tolerant concurrent
in-memory key-value store (C++ sources: `concurrent_hash_map.hpp`,
`write_ahead_log.hpp`, `kv_server.hpp`, `types.hpp`).

Keys, values and file contents are byte strings, modelled as `List Nat`
(each element one byte).  Machine integers (`uint64_t`, `size_t`) are
modelled as `Nat` with explicit reduction modulo `2 ^ 64` at the points
where the C++ code truncates.  The map state of `ConcurrentHashMap` is a
list of buckets, each bucket the `std::list` of key-value pairs in
insertion order, together with the atomic `item_count`.  Concurrency is
not modelled: every C++ operation at issue here runs under the relevant
lock, so the claims are about the sequential semantics.
-/

namespace KVStore

/-! ### Little-endian 64-bit integers (the fixed-width fields of a WAL record) -/

/-- Little-endian base-256 digits: `encodeLEAux k n` is the `k` low-order
bytes of `n`, least significant first (how the C++ code lays out a
`uint64_t`/`size_t` in the record buffer on a little-endian machine). -/
def encodeLEAux : Nat → Nat → List Nat
  | 0, _ => []
  | k + 1, n => n % 256 :: encodeLEAux k (n / 256)

/-- The 8 bytes of a 64-bit little-endian integer. -/
def encodeLE64 (n : Nat) : List Nat := encodeLEAux 8 n

/-- Recompose a little-endian byte list into a natural number (how the
C++ replay code reinterprets record bytes as a `uint64_t`/`size_t`). -/
def decodeLE : List Nat → Nat
  | [] => 0
  | b :: bs => b + 256 * decodeLE bs

/-! ### Hasher (`StringHasher` in `types.hpp`): FNV-1a over the key bytes -/

/-- The FNV-1a loop of `StringHasher::operator()`: `hash ^= byte;
hash *= prime;` with 64-bit wraparound on the multiplication. -/
def fnv1aGo : Nat → List Nat → Nat
  | h, [] => h
  | h, b :: bs => fnv1aGo ((h ^^^ b) * 1099511628211 % 2 ^ 64) bs

/-- `StringHasher`: FNV-1a with 64-bit offset basis
`14695981039346656037` and prime `1099511628211`. -/
def fnv1a (key : List Nat) : Nat := fnv1aGo 14695981039346656037 key

/-- The shard index every `ConcurrentHashMap` operation computes
(`getBucket`): `hasher(key) % buckets.size()`. -/
def bucketIdx (key : List Nat) (n : Nat) : Nat := fnv1a key % n

/-! ### ConcurrentHashMap state and operations -/

/-- State of a `ConcurrentHashMap<std::string, std::string>`: the bucket
array (each bucket its `std::list` of pairs in insertion order) and the
atomic `item_count`. -/
structure MapSt where
  buckets : List (List (List Nat × List Nat))
  count : Nat
deriving DecidableEq

/-- A freshly constructed map with `n` buckets (`ConcurrentHashMap`
constructor): all buckets empty, `item_count = 0`. -/
def emptyMap (n : Nat) : MapSt := ⟨List.replicate n [], 0⟩

/-- `Bucket::find` followed by the value read: first pair in the bucket
list whose key compares byte-equal, if any. -/
def bucketFind (k : List Nat) : List (List Nat × List Nat) → Option (List Nat)
  | [] => none
  | p :: rest => if p.1 = k then some p.2 else bucketFind k rest

/-- The body of `ConcurrentHashMap::insert` on a single bucket: update
the first matching pair in place, or append `(k, v)` at the end.  The
boolean is the C++ return value: `true` iff the key was newly
inserted. -/
def bucketInsert (k v : List Nat) :
    List (List Nat × List Nat) → List (List Nat × List Nat) × Bool
  | [] => ([(k, v)], true)
  | p :: rest =>
    if p.1 = k then ((p.1, v) :: rest, false)
    else
      let r := bucketInsert k v rest
      (p :: r.1, r.2)

/-- The body of `ConcurrentHashMap::erase` on a single bucket: remove
the first matching pair.  The boolean is the C++ return value: `true`
iff the key was present. -/
def bucketErase (k : List Nat) :
    List (List Nat × List Nat) → List (List Nat × List Nat) × Bool
  | [] => ([], false)
  | p :: rest =>
    if p.1 = k then (rest, true)
    else
      let r := bucketErase k rest
      (p :: r.1, r.2)

/-- `ConcurrentHashMap::insert`: locate the bucket by `hash(key) %
buckets.size()`, insert or update there, and bump `item_count` only when
the key was newly inserted. -/
def mapInsert (k v : List Nat) (s : MapSt) : MapSt × Bool :=
  let i := bucketIdx k s.buckets.length
  let r := bucketInsert k v (s.buckets.getD i [])
  (⟨s.buckets.set i r.1, if r.2 then s.count + 1 else s.count⟩, r.2)

/-- `ConcurrentHashMap::erase`: locate the bucket, remove the first
matching pair, decrement `item_count` only when a pair was removed. -/
def mapErase (k : List Nat) (s : MapSt) : MapSt × Bool :=
  let i := bucketIdx k s.buckets.length
  let r := bucketErase k (s.buckets.getD i [])
  (⟨s.buckets.set i r.1, if r.2 then s.count - 1 else s.count⟩, r.2)

/-- `ConcurrentHashMap::find`: look the key up in its bucket and return
a copy of the value. -/
def mapFind (k : List Nat) (s : MapSt) : Option (List Nat) :=
  bucketFind k (s.buckets.getD (bucketIdx k s.buckets.length) [])

/-- `ConcurrentHashMap::exists`: membership test in the key's bucket. -/
def mapExists (k : List Nat) (s : MapSt) : Bool :=
  (bucketFind k (s.buckets.getD (bucketIdx k s.buckets.length) [])).isSome

/-- `ConcurrentHashMap::clear`: empty every bucket, reset `item_count`
to 0.  The bucket array keeps its length. -/
def mapClear (s : MapSt) : MapSt := ⟨List.replicate s.buckets.length [], 0⟩

/-! ### WAL records (`WriteAheadLog` in `write_ahead_log.hpp`)

The `Operation` enum of `types.hpp` declares `PUT, GET, DELETE, EXISTS,
SIZE` in that order, so `static_cast<uint8_t>` yields 0 for `PUT`, 1 for
`GET`, 2 for `DELETE`. -/

/-- Ordinal of `Operation::PUT`. -/
def opPUT : Nat := 0

/-- Ordinal of `Operation::GET`. -/
def opGET : Nat := 1

/-- Ordinal of `Operation::DELETE`. -/
def opDELETE : Nat := 2

/-- The byte string `WriteAheadLog::writeEntry` assembles in
`write_buffer` for one record: 8-byte sequence, 8-byte timestamp, 1-byte
op, 8-byte key length, key bytes, 8-byte value length, value bytes, all
little-endian and unpadded. -/
def encodeRecord (seq ts op : Nat) (key value : List Nat) : List Nat :=
  encodeLE64 seq ++ encodeLE64 ts ++ [op % 256] ++
    encodeLE64 key.length ++ key ++ encodeLE64 value.length ++ value

/-- A decoded WAL record as `WriteAheadLog::replay` reads it back. -/
structure WalRec where
  seq : Nat
  ts : Nat
  op : Nat
  key : List Nat
  value : List Nat
deriving DecidableEq

/-- `std::fstream::read(buf, n)`: succeed with the first `n` bytes and
the remainder exactly when `n` bytes are available; otherwise the stream
enters the failed state (modelled as `none`). -/
def readN (n : Nat) (bs : List Nat) : Option (List Nat × List Nat) :=
  if n ≤ bs.length then some (bs.take n, bs.drop n) else none

/-- One iteration of the `replay` loop: read sequence, timestamp, op
byte, key length, key, value length, value, in that positional order
with no framing.  The source breaks out of the loop when the sequence
read hits EOF; when EOF interrupts a later field the C++ stream fails
and the remaining reads of the iteration leave their targets
uninitialized — the model adopts the benign torn-tail reading and
discards the partial record (`none`). -/
def parseRecord (bs : List Nat) : Option (WalRec × List Nat) :=
  match readN 8 bs with
  | none => none
  | some (seqB, r1) =>
  match readN 8 r1 with
  | none => none
  | some (tsB, r2) =>
  match readN 1 r2 with
  | none => none
  | some (opB, r3) =>
  match readN 8 r3 with
  | none => none
  | some (klB, r4) =>
  match readN (decodeLE klB) r4 with
  | none => none
  | some (keyB, r5) =>
  match readN 8 r5 with
  | none => none
  | some (vlB, r6) =>
  match readN (decodeLE vlB) r6 with
  | none => none
  | some (valB, r7) =>
    some (⟨decodeLE seqB, decodeLE tsB, opB.headD 0, keyB, valB⟩, r7)

/-- The `switch (op)` of `replay`: `Operation::PUT` applies the insert
callback, `Operation::DELETE` the delete callback, and every other op
value falls to the `default:` branch which skips the record. -/
def applyRec (r : WalRec) (s : MapSt) : MapSt :=
  if r.op = opPUT then (mapInsert r.key r.value s).1
  else if r.op = opDELETE then (mapErase r.key s).1
  else s

/-- The sequence-number update at the end of each `replay` iteration:
`if (seq >= sequence_number) sequence_number = seq + 1`. -/
def updSeqCtr (seq ctr : Nat) : Nat := if ctr ≤ seq then seq + 1 else ctr

/-- The `replay` loop, fuel-indexed so that it is structural; one record
consumes at least 33 bytes, so fuel `bs.length` always suffices (see
`walReplay`). -/
def replayLoop : Nat → List Nat → MapSt → Nat → MapSt × Nat
  | 0, _, s, c => (s, c)
  | fuel + 1, bs, s, c =>
    match parseRecord bs with
    | none => (s, c)
    | some (r, rest) => replayLoop fuel rest (applyRec r s) (updSeqCtr r.seq c)

/-- `WriteAheadLog::replay` from offset 0, with the map-mutating
callbacks of `KVServer::recoverFromWAL`, starting from map state `s` and
sequence counter `c`; returns the final map state and the final
`sequence_number`. -/
def walReplay (bs : List Nat) (s : MapSt) (c : Nat) : MapSt × Nat :=
  replayLoop bs.length bs s c

/-- The record-list decoding of a WAL file: the complete records the
`replay` loop walks over, in file order (fuel-indexed like
`replayLoop`). -/
def recordsLoop : Nat → List Nat → List WalRec
  | 0, _ => []
  | fuel + 1, bs =>
    match parseRecord bs with
    | none => []
    | some (r, rest) => r :: recordsLoop fuel rest

/-- The records present in a WAL file, in file order. -/
def walRecords (bs : List Nat) : List WalRec := recordsLoop bs.length bs

/-- The sequence numbers of the records present in a WAL file, in file
order. -/
def walSeqList (bs : List Nat) : List Nat := (walRecords bs).map WalRec.seq

/-! ### WriteAheadLog state, writeEntry, recoverSequenceNumber -/

/-- Mutable state of a `WriteAheadLog`: the byte contents of the log
file and the atomic `sequence_number`. -/
structure Wal where
  file : List Nat
  nextSeq : Nat
deriving DecidableEq

/-- `WriteAheadLog::writeEntry`: fetch-and-increment the sequence number
(this happens whether or not the file write succeeds), assemble the
record, then write it to the file in one call.  `ioOk` is the check
`if (!log_file)` after the write: whether the stream is still good,
which folds together the prior stream state and this write's own
outcome.  On failure the entry returns `false` and the model takes the
write to have produced no complete record (any partial trailing bytes
a failing `write` may leave decode as no record and are never followed
by further bytes, see below).  The error flags of a failed
`std::fstream` are sticky: the stream remains open, `ensureOpen`
reopens only closed streams, and nothing calls `clear()` on it, so once
one `writeEntry` fails every later one fails too.  A sequence of `ioOk`
values is therefore realizable iff it is a block of `true`s followed
only by `false`s; run-level theorems quantify over exactly those
sequences. -/
def writeEntry (w : Wal) (op : Nat) (key value : List Nat) (ts : Nat)
    (ioOk : Bool) : Wal × Bool :=
  let seq := w.nextSeq
  if ioOk then (⟨w.file ++ encodeRecord seq ts op key value, w.nextSeq + 1⟩, true)
  else (⟨w.file, w.nextSeq + 1⟩, false)

/-- `WriteAheadLog::clear`: delete the file and reset the sequence
number to 0. -/
def walClear : Wal := ⟨[], 0⟩

/-- The byte window `recoverSequenceNumber` reads: the last
`min(file_size, max_entry_size)` bytes, where `max_entry_size =
2*sizeof(uint64_t) + 1 + 2*sizeof(size_t) + 1024 + 65536 = 66593`. -/
def maxEntrySize : Nat := 8 * 2 + 1 + 8 * 2 + 1024 + 65536

/-- The backwards scan of `recoverSequenceNumber`: reinterpret every
8-byte window of the buffer as a `uint64_t` and keep the running
maximum (the loop keeps `potential_seq` whenever it is `>= last_seq`,
which over the whole scan is the maximum window value; 0 if the buffer
is shorter than 8 bytes). -/
def windowsMax (buf : List Nat) : Nat :=
  ((List.range (buf.length - 7)).map fun i => decodeLE ((buf.drop i).take 8)).foldr
    max 0

/-- `WriteAheadLog::recoverSequenceNumber` (run by the constructor): 0
for an empty file; otherwise scan the tail window for the maximal
8-byte value `last_seq` and store `last_seq + 1`. -/
def recoverSequenceNumber (file : List Nat) : Nat :=
  if file.length = 0 then 0
  else windowsMax (file.drop (file.length - min file.length maxEntrySize)) + 1

/-! ### Engine (`KVServer`) -/

/-- The engine state `KVServer` owns: the `ConcurrentHashMap` store and
the WAL. -/
structure Engine where
  store : MapSt
  wal : Wal
deriving DecidableEq

/-- The size-bound configuration consulted by
`KVServer::processCommand`, with the defaults of `Config` in
`types.hpp`. -/
structure Config where
  maxKeySize : Nat := 1024
  maxValueSize : Nat := 65536

/-- A freshly constructed engine before recovery: empty map with `n`
segments, empty WAL file, sequence number 0. -/
def engineInit (n : Nat) : Engine := ⟨emptyMap n, ⟨[], 0⟩⟩

/-- `KVServer` construction on an existing WAL file: the
`WriteAheadLog` constructor runs `recoverSequenceNumber` (tail-window
heuristic), then `recoverFromWAL` replays the file into the empty store,
further updating the sequence number per record. -/
def serverOpen (n : Nat) (file : List Nat) : Engine :=
  let r := walReplay file (emptyMap n) (recoverSequenceNumber file)
  ⟨r.1, ⟨file, r.2⟩⟩

/-- A parsed client command as `processCommand` dispatches it (the text
parser itself is a collaborator outside the core, spec section 1). -/
inductive Cmd
  | put (key value : List Nat)
  | get (key : List Nat)
  | del (key : List Nat)
  | exi (key : List Nat)
  | siz
  | ping
  | flushC
deriving DecidableEq

/-- The key a command carries (empty for key-less commands, as the
parser leaves `key` empty for them). -/
def Cmd.key : Cmd → List Nat
  | .put k _ => k
  | .get k => k
  | .del k => k
  | .exi k => k
  | _ => []

/-- The value a command carries (empty except for PUT). -/
def Cmd.value : Cmd → List Nat
  | .put _ v => v
  | _ => []

/-- The distinct replies `processCommand` returns (each constructor one
return site: "OK", "NOT_FOUND", a value, "true"/"false", a number,
"ERROR Key too large", "ERROR Value too large", "ERROR WAL write
failed", "PONG"). -/
inductive Reply
  | ok
  | notFound
  | value (v : List Nat)
  | boolR (b : Bool)
  | natR (n : Nat)
  | errKeyTooLarge
  | errValueTooLarge
  | errWal
  | pong
deriving DecidableEq

/-- `KVServer::processCommand`: validate the key and value sizes first
(oversized input is rejected with no state change), then dispatch.  PUT
and DELETE write the WAL entry first and mutate the map only when
`writeEntry` returned `true`; on WAL failure they reply with the WAL
error and leave the map untouched.  `ts` is the wall-clock timestamp the
entry records and `ioOk` the outcome of the file write. -/
def processCommand (cfg : Config) (e : Engine) (c : Cmd) (ts : Nat)
    (ioOk : Bool) : Engine × Reply :=
  if cfg.maxKeySize < c.key.length then (e, .errKeyTooLarge)
  else if cfg.maxValueSize < c.value.length then (e, .errValueTooLarge)
  else
    match c with
    | .put k v =>
      let r := writeEntry e.wal opPUT k v ts ioOk
      if r.2 then (⟨(mapInsert k v e.store).1, r.1⟩, .ok)
      else (⟨e.store, r.1⟩, .errWal)
    | .get k =>
      match mapFind k e.store with
      | some v => (e, .value v)
      | none => (e, .notFound)
    | .del k =>
      let r := writeEntry e.wal opDELETE k [] ts ioOk
      if r.2 then
        let er := mapErase k e.store
        (⟨er.1, r.1⟩, if er.2 then .ok else .notFound)
      else (⟨e.store, r.1⟩, .errWal)
    | .exi k => (e, .boolR (mapExists k e.store))
    | .siz => (e, .natR e.store.count)
    | .ping => (e, .pong)
    | .flushC => (⟨mapClear e.store, walClear⟩, .ok)

/-! ### Write sequences (for the replay-equivalence and size-law claims) -/

/-- A logical engine write: a PUT or a DELETE. -/
inductive WriteOp
  | wput (key value : List Nat)
  | wdel (key : List Nat)
deriving DecidableEq

/-- The command a write corresponds to. -/
def WriteOp.toCmd : WriteOp → Cmd
  | .wput k v => .put k v
  | .wdel k => .del k

/-- Key of a write. -/
def WriteOp.key : WriteOp → List Nat
  | .wput k _ => k
  | .wdel k => k

/-- Value of a write (empty for DELETE). -/
def WriteOp.value : WriteOp → List Nat
  | .wput _ v => v
  | .wdel _ => []

/-- Run a list of timestamped writes through `processCommand`, every
WAL file write succeeding. -/
def runOk (cfg : Config) (e : Engine) : List (WriteOp × Nat) → Engine
  | [] => e
  | (w, ts) :: rest => runOk cfg (processCommand cfg e w.toCmd ts true).1 rest

/-- The map mutation a successful write performs. -/
def applyW (s : MapSt) : WriteOp → MapSt
  | .wput k v => (mapInsert k v s).1
  | .wdel k => (mapErase k s).1

/-- Direct execution of a write sequence against the map. -/
def applyWs (ws : List (WriteOp × Nat)) (s : MapSt) : MapSt :=
  ws.foldl (fun s p => applyW s p.1) s

/-- The WAL records a successful write sequence appends, given the
starting sequence number: write `i` gets sequence `s + i`, PUTs record
op 0 and the value, DELETEs record op 2 and an empty value. -/
def recsOfW : List (WriteOp × Nat) → Nat → List WalRec
  | [], _ => []
  | (.wput k v, ts) :: rest, s => ⟨s, ts, opPUT, k, v⟩ :: recsOfW rest (s + 1)
  | (.wdel k, ts) :: rest, s => ⟨s, ts, opDELETE, k, []⟩ :: recsOfW rest (s + 1)

/-- Byte image of a record list. -/
def encodeRecs : List WalRec → List Nat
  | [] => []
  | r :: rest => encodeRecord r.seq r.ts r.op r.key r.value ++ encodeRecs rest

/-! ### Map-operation traces (for the size-law claim) -/

/-- The `ConcurrentHashMap` mutations named by the size-law claim. -/
inductive MOp
  | ins (k v : List Nat)
  | er (k : List Nat)
  | clr
deriving DecidableEq

/-- Apply one map operation. -/
def applyMOp (s : MapSt) : MOp → MapSt
  | .ins k v => (mapInsert k v s).1
  | .er k => (mapErase k s).1
  | .clr => mapClear s

/-- Apply an operation trace left to right. -/
def applyMOps (s : MapSt) (ops : List MOp) : MapSt := ops.foldl applyMOp s

/-- One trace step of the presence of key `k`: an insert of `k` makes
it present, an erase of `k` or a clear makes it absent, anything else
leaves it as it was. -/
def presentStep (k : List Nat) (p : Bool) : MOp → Bool
  | .ins k2 _ => if k2 = k then true else p
  | .er k2 => if k2 = k then false else p
  | .clr => false

/-- Whether key `k` is present according to the trace alone: the last
operation touching `k` (a `clear` touches every key) is an insert. -/
def presentAfter (ops : List MOp) (k : List Nat) : Bool :=
  ops.foldl (presentStep k) false

/-- The keys present in the map, bucket by bucket in index order. -/
def presentKeys (s : MapSt) : List (List Nat) :=
  (s.buckets.map fun b => b.map Prod.fst).flatten

/-! ### Raw WAL appends (for the sequence-number claims) -/

/-- One call to `writeEntry`: the operation, key, value, the timestamp
taken inside the call, and whether the file write succeeds. -/
structure AppendReq where
  op : Nat
  key : List Nat
  value : List Nat
  ts : Nat
  ioOk : Bool
deriving DecidableEq

/-- Run a list of `writeEntry` calls against a WAL.  Because a failed
`std::fstream` keeps its error flags (see `writeEntry`), only request
lists whose `ioOk` values are a block of `true`s followed by `false`s
— written `okReqs ++ failReqs` below — correspond to executions of the
source. -/
def runAppends (w : Wal) : List AppendReq → Wal
  | [] => w
  | a :: rest => runAppends (writeEntry w a.op a.key a.value a.ts a.ioOk).1 rest

/-- The records that land in the file, with their assigned sequence
numbers: every call consumes one sequence number, only the calls whose
file write succeeds contribute a record. -/
def filedRecsOf : List AppendReq → Nat → List WalRec
  | [], _ => []
  | a :: rest, s =>
    if a.ioOk then ⟨s, a.ts, a.op, a.key, a.value⟩ :: filedRecsOf rest (s + 1)
    else filedRecsOf rest (s + 1)

/-- FNV-1a as the specification words it (spec sections 2 and 4.1): a
fold over the byte string starting from the 64-bit offset basis
`0xcbf29ce484222325`, each step XORing in the byte and multiplying by
the prime `0x100000001b3` in 64 bits. -/
def fnv1aSpec (key : List Nat) : Nat :=
  key.foldl (fun h b => (h ^^^ b) * 0x100000001b3 % 2 ^ 64) 0xcbf29ce484222325

/-- Structural well-formedness of a reachable map state: the counter
equals the total number of stored pairs, each bucket's keys are
distinct, and every pair sits in the bucket its key hashes to. -/
def MapWF (s : MapSt) : Prop :=
  s.count = (s.buckets.map List.length).sum ∧
  (∀ i, ((s.buckets.getD i []).map Prod.fst).Nodup) ∧
  (∀ i, ∀ p ∈ s.buckets.getD i [], bucketIdx p.1 s.buckets.length = i)

/-! ### Basic lemmas: little-endian round trips, stream reads, list helpers -/

theorem encodeLEAux_length (k n : Nat) : (encodeLEAux k n).length = k := by
  induction k generalizing n with
  | zero => rfl
  | succ k ih => simp [encodeLEAux, ih]

theorem encodeLE64_length (n : Nat) : (encodeLE64 n).length = 8 :=
  encodeLEAux_length 8 n

theorem decodeLE_encodeLEAux (k n : Nat) :
    decodeLE (encodeLEAux k n) = n % 256 ^ k := by
  induction k generalizing n with
  | zero => simp [encodeLEAux, decodeLE, Nat.mod_one]
  | succ k ih =>
    rw [encodeLEAux, decodeLE, ih, pow_succ', Nat.mod_mul]

theorem decodeLE_encodeLE64 (n : Nat) : decodeLE (encodeLE64 n) = n % 2 ^ 64 := by
  rw [encodeLE64, decodeLE_encodeLEAux]
  norm_num

theorem readN_exact {n : Nat} (xs ys : List Nat) (h : xs.length = n) :
    readN n (xs ++ ys) = some (xs, ys) := by
  subst h
  rw [readN, if_pos (by simp), List.take_left, List.drop_left]

theorem readN_le64 (m : Nat) (ys : List Nat) :
    readN 8 (encodeLE64 m ++ ys) = some (encodeLE64 m, ys) :=
  readN_exact _ _ (encodeLE64_length m)

theorem readN_one (b : Nat) (ys : List Nat) :
    readN 1 (b :: ys) = some ([b], ys) :=
  readN_exact [b] ys rfl

theorem readN_some {n : Nat} {bs xs rest : List Nat}
    (h : readN n bs = some (xs, rest)) : rest.length + n = bs.length := by
  unfold readN at h
  split at h
  · cases h
    simp only [List.length_drop]
    omega
  · exact absurd h (by simp)

theorem parseRecord_encodeRecord (seq ts op : Nat) (key value rest : List Nat)
    (hk : key.length < 2 ^ 64) (hv : value.length < 2 ^ 64) :
    parseRecord (encodeRecord seq ts op key value ++ rest) =
      some (⟨seq % 2 ^ 64, ts % 2 ^ 64, op % 256, key, value⟩, rest) := by
  simp only [encodeRecord, List.append_assoc, List.singleton_append,
    List.cons_append, List.nil_append]
  simp only [parseRecord, readN_le64, readN_one, decodeLE_encodeLE64,
    Nat.mod_eq_of_lt hk, Nat.mod_eq_of_lt hv, readN_exact _ _ rfl,
    List.headD_cons]

theorem parseRecord_rest_lt {bs : List Nat} {r : WalRec} {rest : List Nat}
    (h : parseRecord bs = some (r, rest)) : rest.length < bs.length := by
  unfold parseRecord at h
  cases h1 : readN 8 bs with
  | none => simp [h1] at h
  | some p1 =>
  obtain ⟨seqB, r1⟩ := p1
  simp only [h1] at h
  cases h2 : readN 8 r1 with
  | none => simp [h2] at h
  | some p2 =>
  obtain ⟨tsB, r2⟩ := p2
  simp only [h2] at h
  cases h3 : readN 1 r2 with
  | none => simp [h3] at h
  | some p3 =>
  obtain ⟨opB, r3⟩ := p3
  simp only [h3] at h
  cases h4 : readN 8 r3 with
  | none => simp [h4] at h
  | some p4 =>
  obtain ⟨klB, r4⟩ := p4
  simp only [h4] at h
  cases h5 : readN (decodeLE klB) r4 with
  | none => simp [h5] at h
  | some p5 =>
  obtain ⟨keyB, r5⟩ := p5
  simp only [h5] at h
  cases h6 : readN 8 r5 with
  | none => simp [h6] at h
  | some p6 =>
  obtain ⟨vlB, r6⟩ := p6
  simp only [h6] at h
  cases h7 : readN (decodeLE vlB) r6 with
  | none => simp [h7] at h
  | some p7 =>
  obtain ⟨valB, r7⟩ := p7
  simp only [h7] at h
  cases h
  have e1 := readN_some h1
  have e2 := readN_some h2
  have e3 := readN_some h3
  have e4 := readN_some h4
  have e5 := readN_some h5
  have e6 := readN_some h6
  have e7 := readN_some h7
  omega

theorem replayLoop_fuel :
    ∀ f1 f2 (bs : List Nat) (s : MapSt) (c : Nat), bs.length ≤ f1 →
      bs.length ≤ f2 → replayLoop f1 bs s c = replayLoop f2 bs s c := by
  intro f1
  induction f1 with
  | zero =>
    intro f2 bs s c h1 _
    have hbs : bs = [] := List.length_eq_zero.mp (Nat.le_zero.mp h1)
    subst hbs
    cases f2 with
    | zero => rfl
    | succ m =>
      have hp : parseRecord [] = none := rfl
      simp [replayLoop, hp]
  | succ f ih =>
    intro f2 bs s c h1 h2
    cases f2 with
    | zero =>
      have hbs : bs = [] := List.length_eq_zero.mp (Nat.le_zero.mp h2)
      subst hbs
      have hp : parseRecord [] = none := rfl
      simp [replayLoop, hp]
    | succ g =>
      cases hp : parseRecord bs with
      | none => simp [replayLoop, hp]
      | some p =>
        obtain ⟨r, rest⟩ := p
        have hlt := parseRecord_rest_lt hp
        simp only [replayLoop, hp]
        exact ih g rest _ _ (by omega) (by omega)

theorem walReplay_none {bs : List Nat} (h : parseRecord bs = none)
    (s : MapSt) (c : Nat) : walReplay bs s c = (s, c) := by
  unfold walReplay
  cases hl : bs.length with
  | zero => rfl
  | succ m => simp [replayLoop, h]

theorem walReplay_some {bs : List Nat} {r : WalRec} {rest : List Nat}
    (h : parseRecord bs = some (r, rest)) (s : MapSt) (c : Nat) :
    walReplay bs s c = walReplay rest (applyRec r s) (updSeqCtr r.seq c) := by
  have hlt := parseRecord_rest_lt h
  unfold walReplay
  obtain ⟨m, hm⟩ : ∃ m, bs.length = m + 1 := ⟨bs.length - 1, by omega⟩
  rw [hm]
  simp only [replayLoop, h]
  exact replayLoop_fuel m rest.length rest _ _ (by omega) le_rfl

theorem recordsLoop_fuel :
    ∀ f1 f2 (bs : List Nat), bs.length ≤ f1 → bs.length ≤ f2 →
      recordsLoop f1 bs = recordsLoop f2 bs := by
  intro f1
  induction f1 with
  | zero =>
    intro f2 bs h1 _
    have hbs : bs = [] := List.length_eq_zero.mp (Nat.le_zero.mp h1)
    subst hbs
    cases f2 with
    | zero => rfl
    | succ m =>
      have hp : parseRecord [] = none := rfl
      simp [recordsLoop, hp]
  | succ f ih =>
    intro f2 bs h1 h2
    cases f2 with
    | zero =>
      have hbs : bs = [] := List.length_eq_zero.mp (Nat.le_zero.mp h2)
      subst hbs
      have hp : parseRecord [] = none := rfl
      simp [recordsLoop, hp]
    | succ g =>
      cases hp : parseRecord bs with
      | none => simp [recordsLoop, hp]
      | some p =>
        obtain ⟨r, rest⟩ := p
        have hlt := parseRecord_rest_lt hp
        simp only [recordsLoop, hp]
        rw [ih g rest (by omega) (by omega)]

theorem walRecords_none {bs : List Nat} (h : parseRecord bs = none) :
    walRecords bs = [] := by
  unfold walRecords
  cases hl : bs.length with
  | zero => rfl
  | succ m => simp [recordsLoop, h]

theorem walRecords_some {bs : List Nat} {r : WalRec} {rest : List Nat}
    (h : parseRecord bs = some (r, rest)) :
    walRecords bs = r :: walRecords rest := by
  have hlt := parseRecord_rest_lt h
  unfold walRecords
  obtain ⟨m, hm⟩ : ∃ m, bs.length = m + 1 := ⟨bs.length - 1, by omega⟩
  rw [hm]
  simp only [recordsLoop, h]
  rw [recordsLoop_fuel m rest.length rest (by omega) le_rfl]

/-! ### Replay of an encoded record stream -/

theorem applyRec_congr (r r2 : WalRec) (ho : r.op = r2.op) (hk : r.key = r2.key)
    (hv : r.value = r2.value) (s : MapSt) : applyRec r s = applyRec r2 s := by
  simp only [applyRec, ho, hk, hv]

theorem walReplay_encodeRecs (recs : List WalRec) :
    ∀ (s : MapSt) (c : Nat),
      (∀ r ∈ recs, r.op < 256 ∧ r.key.length < 2 ^ 64 ∧ r.value.length < 2 ^ 64) →
      (walReplay (encodeRecs recs) s c).1 =
        recs.foldl (fun m r => applyRec r m) s := by
  induction recs with
  | nil =>
    intro s c _
    rw [encodeRecs, walReplay_none (show parseRecord [] = none from rfl)]
    rfl
  | cons r rest ih =>
    intro s c h
    obtain ⟨ho, hk, hv⟩ := h r (by simp)
    rw [encodeRecs,
      walReplay_some (parseRecord_encodeRecord r.seq r.ts r.op r.key r.value _ hk hv),
      List.foldl_cons]
    rw [applyRec_congr ⟨r.seq % 2 ^ 64, r.ts % 2 ^ 64, r.op % 256, r.key, r.value⟩ r
      (Nat.mod_eq_of_lt ho) rfl rfl s]
    exact ih _ _ fun q hq => h q (by simp [hq])

theorem walRecords_encodeRecs (recs : List WalRec)
    (h : ∀ r ∈ recs, r.key.length < 2 ^ 64 ∧ r.value.length < 2 ^ 64) :
    walRecords (encodeRecs recs) =
      recs.map fun r => ⟨r.seq % 2 ^ 64, r.ts % 2 ^ 64, r.op % 256, r.key, r.value⟩ := by
  induction recs with
  | nil => rw [encodeRecs, walRecords_none (show parseRecord [] = none from rfl)]; rfl
  | cons r rest ih =>
    obtain ⟨hk, hv⟩ := h r (by simp)
    rw [encodeRecs, walRecords_some (parseRecord_encodeRecord r.seq r.ts r.op r.key r.value _ hk hv)]
    rw [ih fun q hq => h q (by simp [hq])]
    rfl

/-! ### Characterization of a run of successful engine writes -/

theorem runOk_spec (cfg : Config) :
    ∀ (ws : List (WriteOp × Nat)) (e : Engine),
      (∀ p ∈ ws, p.1.key.length ≤ cfg.maxKeySize ∧
        p.1.value.length ≤ cfg.maxValueSize) →
      runOk cfg e ws =
        ⟨applyWs ws e.store,
         ⟨e.wal.file ++ encodeRecs (recsOfW ws e.wal.nextSeq),
          e.wal.nextSeq + ws.length⟩⟩ := by
  intro ws
  induction ws with
  | nil =>
    intro e _
    simp [runOk, applyWs, recsOfW, encodeRecs]
  | cons p rest ih =>
    intro e h
    obtain ⟨w, ts⟩ := p
    obtain ⟨hk, hv⟩ := h (w, ts) (by simp)
    have hrest : ∀ q ∈ rest, q.1.key.length ≤ cfg.maxKeySize ∧
        q.1.value.length ≤ cfg.maxValueSize := fun q hq => h q (by simp [hq])
    cases w with
    | wput k v =>
      have hstep : (processCommand cfg e (WriteOp.wput k v).toCmd ts true).1 =
          ⟨(mapInsert k v e.store).1,
           ⟨e.wal.file ++ encodeRecord e.wal.nextSeq ts opPUT k v,
            e.wal.nextSeq + 1⟩⟩ := by
        simp only [WriteOp.key] at hk
        simp only [WriteOp.value] at hv
        simp [processCommand, WriteOp.toCmd, Cmd.key, Cmd.value, writeEntry,
          Nat.not_lt.mpr hk, Nat.not_lt.mpr hv]
      rw [runOk, hstep, ih _ hrest]
      simp [recsOfW, encodeRecs, applyWs, applyW, List.append_assoc,
        Nat.add_comm, Nat.add_assoc, Nat.add_left_comm]
    | wdel k =>
      have hstep : (processCommand cfg e (WriteOp.wdel k).toCmd ts true).1 =
          ⟨(mapErase k e.store).1,
           ⟨e.wal.file ++ encodeRecord e.wal.nextSeq ts opDELETE k [],
            e.wal.nextSeq + 1⟩⟩ := by
        simp only [WriteOp.key] at hk
        simp [processCommand, WriteOp.toCmd, Cmd.key, Cmd.value, writeEntry,
          Nat.not_lt.mpr hk]
      rw [runOk, hstep, ih _ hrest]
      simp [recsOfW, encodeRecs, applyWs, applyW, List.append_assoc,
        Nat.add_comm, Nat.add_assoc, Nat.add_left_comm]

theorem recsOfW_valid (cfg : Config) (hk64 : cfg.maxKeySize < 2 ^ 64)
    (hv64 : cfg.maxValueSize < 2 ^ 64) :
    ∀ (ws : List (WriteOp × Nat)) (s : Nat),
      (∀ p ∈ ws, p.1.key.length ≤ cfg.maxKeySize ∧
        p.1.value.length ≤ cfg.maxValueSize) →
      ∀ r ∈ recsOfW ws s, r.op < 256 ∧ r.key.length < 2 ^ 64 ∧
        r.value.length < 2 ^ 64 := by
  intro ws
  induction ws with
  | nil => intro s _ r hr; cases hr
  | cons p rest ih =>
    intro s h r hr
    obtain ⟨w, ts⟩ := p
    obtain ⟨hk, hv⟩ := h (w, ts) (by simp)
    have hrest := fun q hq => h q (List.mem_cons_of_mem _ hq)
    cases w with
    | wput k v =>
      rw [recsOfW] at hr
      rcases List.mem_cons.mp hr with h1 | h2
      · subst h1
        simp only [WriteOp.key] at hk
        simp only [WriteOp.value] at hv
        refine ⟨by norm_num [opPUT], ?_, ?_⟩
        · show k.length < 2 ^ 64
          omega
        · show v.length < 2 ^ 64
          omega
      · exact ih _ hrest r h2
    | wdel k =>
      rw [recsOfW] at hr
      rcases List.mem_cons.mp hr with h1 | h2
      · subst h1
        simp only [WriteOp.key] at hk
        refine ⟨by norm_num [opDELETE], ?_, ?_⟩
        · show k.length < 2 ^ 64
          omega
        · show ([] : List Nat).length < 2 ^ 64
          norm_num
      · exact ih _ hrest r h2

theorem foldl_applyRec_recsOfW :
    ∀ (ws : List (WriteOp × Nat)) (s : Nat) (m : MapSt),
      (recsOfW ws s).foldl (fun m r => applyRec r m) m = applyWs ws m := by
  intro ws
  induction ws with
  | nil => intro s m; rfl
  | cons p rest ih =>
    intro s m
    obtain ⟨w, ts⟩ := p
    cases w with
    | wput k v =>
      rw [recsOfW, List.foldl_cons]
      rw [ih]
      rfl
    | wdel k =>
      rw [recsOfW, List.foldl_cons]
      rw [ih]
      rfl

/-! ### Claim C1: replay equivalence -/

/-- C1 (replay equivalence): for any sequence of successful Engine
writes (PUTs and DELETEs) within the configured size bounds, discarding
the in-memory map and rebuilding it by replaying the WAL file from
offset 0 with the insert/erase callbacks of `recoverFromWAL` yields
exactly — bucket for bucket, key for key, byte for byte — the map state
the run of writes left behind. -/
theorem C1_replay_equivalence (cfg : Config) (n : Nat)
    (ws : List (WriteOp × Nat))
    (hw : ∀ p ∈ ws, p.1.key.length ≤ cfg.maxKeySize ∧
      p.1.value.length ≤ cfg.maxValueSize)
    (hk : cfg.maxKeySize < 2 ^ 64) (hv : cfg.maxValueSize < 2 ^ 64) :
    (walReplay (runOk cfg (engineInit n) ws).wal.file (emptyMap n) 0).1 =
      (runOk cfg (engineInit n) ws).store := by
  rw [runOk_spec cfg ws (engineInit n) hw]
  show (walReplay ([] ++ encodeRecs (recsOfW ws 0)) (emptyMap n) 0).1 =
    applyWs ws (emptyMap n)
  rw [List.nil_append,
    walReplay_encodeRecs _ _ _ (recsOfW_valid cfg hk hv ws 0 hw)]
  exact foldl_applyRec_recsOfW ws 0 (emptyMap n)

/-- Witness for C1: a concrete two-write run (PUT then DELETE). -/
theorem C1_replay_equivalence_witness :
    (walReplay (runOk {} (engineInit 2)
          [(WriteOp.wput [97] [98], 5), (WriteOp.wdel [97], 6)]).wal.file
        (emptyMap 2) 0).1 =
      (runOk {} (engineInit 2)
          [(WriteOp.wput [97] [98], 5), (WriteOp.wdel [97], 6)]).store :=
  C1_replay_equivalence {} 2 [(WriteOp.wput [97] [98], 5), (WriteOp.wdel [97], 6)]
    (by decide) (by decide) (by decide)

/-! ### Claim C2: atomicity of a logical write on WAL failure -/

/-- C2 (write atomicity): for a PUT or DELETE whose key and value pass
validation, a failed WAL append makes `processCommand` reply with the
WAL error and leave the map (and the file) untouched; a successful
append applies the map mutation and acknowledges the operation (OK for
PUT, OK/NOT_FOUND for DELETE according to presence). -/
theorem C2_wal_write_atomicity (cfg : Config) (e : Engine) (k v : List Nat)
    (ts : Nat) (hk : k.length ≤ cfg.maxKeySize)
    (hv : v.length ≤ cfg.maxValueSize) :
    ((processCommand cfg e (.put k v) ts false).1.store = e.store ∧
      (processCommand cfg e (.put k v) ts false).2 = .errWal ∧
      (processCommand cfg e (.put k v) ts false).1.wal.file = e.wal.file) ∧
    ((processCommand cfg e (.put k v) ts true).1.store =
        (mapInsert k v e.store).1 ∧
      (processCommand cfg e (.put k v) ts true).2 = .ok) ∧
    ((processCommand cfg e (.del k) ts false).1.store = e.store ∧
      (processCommand cfg e (.del k) ts false).2 = .errWal ∧
      (processCommand cfg e (.del k) ts false).1.wal.file = e.wal.file) ∧
    ((processCommand cfg e (.del k) ts true).1.store =
        (mapErase k e.store).1 ∧
      (processCommand cfg e (.del k) ts true).2 =
        (if (mapErase k e.store).2 then .ok else .notFound)) := by
  refine ⟨⟨?_, ?_, ?_⟩, ⟨?_, ?_⟩, ⟨?_, ?_, ?_⟩, ⟨?_, ?_⟩⟩ <;>
    simp [processCommand, writeEntry, Cmd.key, Cmd.value,
      Nat.not_lt.mpr hk, Nat.not_lt.mpr hv]

/-- Witness for C2 at a concrete engine and key. -/
theorem C2_wal_write_atomicity_witness :
    (processCommand {} (engineInit 1) (.put [97] [98]) 0 false).1.store =
        (engineInit 1).store ∧
      (processCommand {} (engineInit 1) (.put [97] [98]) 0 false).2 =
        Reply.errWal :=
  ⟨(C2_wal_write_atomicity {} (engineInit 1) [97] [98] 0 (by decide)
      (by decide)).1.1,
   (C2_wal_write_atomicity {} (engineInit 1) [97] [98] 0 (by decide)
      (by decide)).1.2.1⟩

/-! ### Claim C3: replay has no corruption detection -/

/-- C3 (failing-input evaluation): a complete record whose op code (5)
is not a valid operation is silently skipped by replay — the map stays
empty, the sequence counter still advances past the record, and no
error is raised (the embedded `replay`, like the C++ `void replay`, has
no failure outcome at all, so no `CorruptLog` can be reported). -/
theorem C3_unknown_op_skipped :
    walReplay (encodeRecord 0 0 5 [97] []) (emptyMap 64) 0 =
      (emptyMap 64, 1) := by
  decide

/-! ### Claim C4: sequence-number recovery is a tail-scan heuristic -/

/-- C4 (failing-input evaluation): on the WAL holding the single record
`PUT(seq 0, key "aaaaaaaa", value "")`, the constructor's
`recoverSequenceNumber` reinterprets the key bytes `0x61…61` as a
sequence number and stores `0x6161616161616161 + 1`; the subsequent
replay keeps that value, so the opened server would continue at
sequence 7016996765293437282.  Decoding the records from offset 0 and
taking max+1, as the claim prescribes, gives 1. -/
theorem C4_tail_scan_heuristic :
    recoverSequenceNumber (encodeRecord 0 0 opPUT (List.replicate 8 97) []) =
        7016996765293437282 ∧
      (serverOpen 64 (encodeRecord 0 0 opPUT
          (List.replicate 8 97) [])).wal.nextSeq = 7016996765293437282 ∧
      (walReplay (encodeRecord 0 0 opPUT (List.replicate 8 97) [])
          (emptyMap 64) 0).2 = 1 := by
  decide

/-! ### Claim C7: WAL record layout -/

/-- C7 counterexample: the encoded DELETE record for key "a" is
33 + 1 + 0 = 34 bytes, not 34 + key_len + value_len = 35, and its op
byte (offset 16) is 2, not 1. -/
theorem C7_layout_counterexample :
    (encodeRecord 0 0 opDELETE [97] []).length ≠
        34 + ([97] : List Nat).length + ([] : List Nat).length ∧
      (encodeRecord 0 0 opDELETE [97] []).getD 16 0 ≠ 1 := by
  decide

/-! ### Claim C9: key/value validation -/

/-- C9 counterexample: a PUT whose key is the empty byte string passes
validation, is acknowledged with OK, and stores the empty key — the
engine does not enforce non-emptiness of keys. -/
theorem C9_empty_key_accepted :
    (processCommand {} (engineInit 1) (.put [] [99]) 0 true).2 = Reply.ok ∧
      mapFind [] (processCommand {} (engineInit 1)
          (.put [] [99]) 0 true).1.store = some [99] := by
  decide

/-- C7 (amended layout): a record is the unpadded concatenation of an
8-byte sequence, an 8-byte timestamp, a 1-byte op code (`0 = PUT`,
`2 = DELETE`; 1 is `GET` in the enum), an 8-byte key length, the key
bytes, an 8-byte value length, and the value bytes — so each field sits
at the spec's offset with the fixed overhead being 33 bytes and the
total size `33 + key_len + value_len`. -/
theorem C7_record_layout (seq ts op : Nat) (key value : List Nat) :
    (encodeRecord seq ts op key value).length =
        33 + key.length + value.length ∧
      decodeLE ((encodeRecord seq ts op key value).take 8) = seq % 2 ^ 64 ∧
      decodeLE (((encodeRecord seq ts op key value).drop 8).take 8) =
        ts % 2 ^ 64 ∧
      ((encodeRecord seq ts op key value).drop 16).take 1 = [op % 256] ∧
      decodeLE (((encodeRecord seq ts op key value).drop 17).take 8) =
        key.length % 2 ^ 64 ∧
      ((encodeRecord seq ts op key value).drop 25).take key.length = key ∧
      decodeLE (((encodeRecord seq ts op key value).drop
          (25 + key.length)).take 8) = value.length % 2 ^ 64 ∧
      ((encodeRecord seq ts op key value).drop
          (33 + key.length)).take value.length = value ∧
      opPUT = 0 ∧ opDELETE = 2 := by
  have hlen : ∀ m : Nat, (encodeLE64 m).length = 8 := encodeLE64_length
  refine ⟨?_, ?_, ?_, ?_, ?_, ?_, ?_, ?_, rfl, rfl⟩
  · simp [encodeRecord, List.length_append, hlen]
    omega
  · rw [show encodeRecord seq ts op key value = encodeLE64 seq ++
        (encodeLE64 ts ++ ([op % 256] ++ (encodeLE64 key.length ++
          (key ++ (encodeLE64 value.length ++ value))))) by
      simp [encodeRecord]]
    rw [List.take_left' (hlen seq), decodeLE_encodeLE64]
  · rw [show encodeRecord seq ts op key value = encodeLE64 seq ++
        (encodeLE64 ts ++ ([op % 256] ++ (encodeLE64 key.length ++
          (key ++ (encodeLE64 value.length ++ value))))) by
      simp [encodeRecord]]
    rw [List.drop_left' (hlen seq), List.take_left' (hlen ts),
      decodeLE_encodeLE64]
  · rw [show encodeRecord seq ts op key value = (encodeLE64 seq ++
        encodeLE64 ts) ++ ([op % 256] ++ (encodeLE64 key.length ++
          (key ++ (encodeLE64 value.length ++ value)))) by
      simp [encodeRecord]]
    rw [List.drop_left' (by simp [List.length_append, hlen]),
      List.take_left' (show ([op % 256] : List Nat).length = 1 from rfl)]
  · rw [show encodeRecord seq ts op key value = (encodeLE64 seq ++
        (encodeLE64 ts ++ [op % 256])) ++ (encodeLE64 key.length ++
          (key ++ (encodeLE64 value.length ++ value))) by
      simp [encodeRecord]]
    rw [List.drop_left' (by simp [List.length_append, hlen]),
      List.take_left' (hlen key.length), decodeLE_encodeLE64]
  · rw [show encodeRecord seq ts op key value = (encodeLE64 seq ++
        (encodeLE64 ts ++ ([op % 256] ++ encodeLE64 key.length))) ++
          (key ++ (encodeLE64 value.length ++ value)) by
      simp [encodeRecord]]
    rw [List.drop_left' (by simp [List.length_append, hlen]),
      List.take_left' rfl]
  · rw [show encodeRecord seq ts op key value = (encodeLE64 seq ++
        (encodeLE64 ts ++ ([op % 256] ++ (encodeLE64 key.length ++
          key)))) ++ (encodeLE64 value.length ++ value) by
      simp [encodeRecord]]
    rw [List.drop_left' (by simp [List.length_append, hlen]; omega),
      List.take_left' (hlen value.length), decodeLE_encodeLE64]
  · rw [show encodeRecord seq ts op key value = (encodeLE64 seq ++
        (encodeLE64 ts ++ ([op % 256] ++ (encodeLE64 key.length ++
          (key ++ encodeLE64 value.length))))) ++ value by
      simp [encodeRecord]]
    rw [List.drop_left' (by simp [List.length_append, hlen]; omega),
      List.take_length]

/-! ### Claims C8 and C10: hashing and shard assignment -/

theorem fnv1aGo_foldl (l : List Nat) :
    ∀ h : Nat, fnv1aGo h l =
      l.foldl (fun h b => (h ^^^ b) * 1099511628211 % 2 ^ 64) h := by
  induction l with
  | nil => intro h; rfl
  | cons b bs ih => intro h; rw [fnv1aGo, List.foldl_cons, ih]

theorem getD_set_ne {α : Type} (l : List α) (i j : Nat) (b d : α)
    (h : i ≠ j) : (l.set i b).getD j d = l.getD j d := by
  induction l generalizing i j with
  | nil => simp [List.set]
  | cons a l ih =>
    cases i with
    | zero =>
      cases j with
      | zero => exact absurd rfl h
      | succ j => simp [List.set]
    | succ i =>
      cases j with
      | zero => simp [List.set]
      | succ j =>
        simp only [List.set, List.getD_cons_succ]
        exact ih i j (by omega)

/-- C8 (hashing and shard assignment): the hash is exactly FNV-1a as
the spec defines it (64-bit offset basis `0xcbf29ce484222325`, prime
`0x100000001b3`, byte at a time); and every map operation works on the
bucket `hash(k) % N` alone — insert and erase leave every other bucket
unchanged, and find reads only that bucket.  Purity and stability are
immediate: the hash and the index are functions of the key (and the
fixed bucket count) only. -/
theorem C8_hash_shard_assignment :
    (∀ k, fnv1a k = fnv1aSpec k) ∧
    (∀ k v s j, j ≠ bucketIdx k s.buckets.length →
      (mapInsert k v s).1.buckets.getD j [] = s.buckets.getD j [] ∧
      (mapErase k s).1.buckets.getD j [] = s.buckets.getD j []) ∧
    (∀ k s, mapFind k s =
      bucketFind k (s.buckets.getD (bucketIdx k s.buckets.length) [])) := by
  refine ⟨?_, ?_, ?_⟩
  · intro k
    rw [fnv1a, fnv1aSpec, fnv1aGo_foldl]
  · intro k v s j hj
    exact ⟨getD_set_ne _ _ _ _ _ fun he => hj he.symm,
      getD_set_ne _ _ _ _ _ fun he => hj he.symm⟩
  · intro k s
    rfl

/-- Witness for C8: key "a" hashes to bucket 12 of 64, so inserting it
leaves bucket 0 unchanged. -/
theorem C8_hash_shard_assignment_witness :
    (mapInsert [97] [98] (emptyMap 64)).1.buckets.getD 0 [] =
      (emptyMap 64).buckets.getD 0 [] :=
  (C8_hash_shard_assignment.2.1 [97] [98] (emptyMap 64) 0 (by decide)).1

/-- C10 (shard-indexing safety): with at least one bucket the index
`hash(key) % num_buckets` is always strictly below the bucket count, so
the bucket access is in range and the modulo never divides by zero;
with zero buckets no index satisfies the bound. -/
theorem C10_shard_index_in_range :
    (∀ (k : List Nat) (n : Nat), 1 ≤ n → bucketIdx k n < n) ∧
    (∀ k : List Nat, ¬ bucketIdx k 0 < 0) := by
  constructor
  · intro k n hn
    exact Nat.mod_lt _ (by omega)
  · intro k
    omega

/-- Witness for C10 at the default shard count. -/
theorem C10_shard_index_in_range_witness : bucketIdx [97] 64 < 64 :=
  C10_shard_index_in_range.1 [97] 64 (by decide)

/-- C9 (amended): validation enforces only the upper size bounds — a
command whose key exceeds `max_key_size` or whose value exceeds
`max_value_size` is rejected with the matching validation error and the
engine state is returned unchanged (no map or WAL mutation), and any
command that is not rejected this way has key and value within the
bounds.  Empty keys are not rejected. -/
theorem C9_validation_bounds (cfg : Config) (e : Engine) (c : Cmd)
    (ts : Nat) (ioOk : Bool) :
    (cfg.maxKeySize < c.key.length →
      processCommand cfg e c ts ioOk = (e, .errKeyTooLarge)) ∧
    (c.key.length ≤ cfg.maxKeySize → cfg.maxValueSize < c.value.length →
      processCommand cfg e c ts ioOk = (e, .errValueTooLarge)) ∧
    ((processCommand cfg e c ts ioOk).2 ≠ .errKeyTooLarge →
      (processCommand cfg e c ts ioOk).2 ≠ .errValueTooLarge →
      c.key.length ≤ cfg.maxKeySize ∧ c.value.length ≤ cfg.maxValueSize) := by
  refine ⟨?_, ?_, ?_⟩
  · intro h
    simp [processCommand, h]
  · intro h1 h2
    simp [processCommand, Nat.not_lt.mpr h1, h2]
  · intro h1 h2
    by_cases hk : cfg.maxKeySize < c.key.length
    · exact absurd (by simp [processCommand, hk]) h1
    · by_cases hv : cfg.maxValueSize < c.value.length
      · exact absurd (by simp [processCommand, hk, hv]) h2
      · exact ⟨Nat.not_lt.mp hk, Nat.not_lt.mp hv⟩

/-- Witness for C9: against a configuration with `max_key_size = 1`, a
two-byte key is rejected with the key validation error and no state
change. -/
theorem C9_validation_bounds_witness :
    processCommand ⟨1, 1⟩ (engineInit 1) (.put [97, 97] []) 0 true =
      ((engineInit 1), Reply.errKeyTooLarge) :=
  (C9_validation_bounds ⟨1, 1⟩ (engineInit 1) (.put [97, 97] []) 0 true).1
    (by decide)

/-! ### Claim C5 (amended): monotone sequences, gaps on failed appends -/

theorem runAppends_spec :
    ∀ (reqs : List AppendReq) (w : Wal),
      runAppends w reqs =
        ⟨w.file ++ encodeRecs (filedRecsOf reqs w.nextSeq),
         w.nextSeq + reqs.length⟩ := by
  intro reqs
  induction reqs with
  | nil =>
    intro w
    simp [runAppends, filedRecsOf, encodeRecs]
  | cons a rest ih =>
    intro w
    rw [runAppends, ih]
    cases hio : a.ioOk with
    | true =>
      simp [writeEntry, hio, filedRecsOf, encodeRecs, List.append_assoc,
        Nat.add_comm, Nat.add_assoc, Nat.add_left_comm]
    | false =>
      simp [writeEntry, hio, filedRecsOf, encodeRecs,
        Nat.add_comm, Nat.add_assoc, Nat.add_left_comm]

theorem filedRecsOf_valid :
    ∀ (reqs : List AppendReq) (s : Nat),
      (∀ a ∈ reqs, a.key.length < 2 ^ 64 ∧ a.value.length < 2 ^ 64) →
      ∀ r ∈ filedRecsOf reqs s, r.key.length < 2 ^ 64 ∧
        r.value.length < 2 ^ 64 := by
  intro reqs
  induction reqs with
  | nil => intro s _ r hr; cases hr
  | cons a rest ih =>
    intro s h r hr
    rw [filedRecsOf] at hr
    have ha := h a (by simp)
    have hrest := fun q hq => h q (List.mem_cons_of_mem _ hq)
    by_cases hio : a.ioOk
    · rw [if_pos hio] at hr
      rcases List.mem_cons.mp hr with h1 | h2
      · subst h1
        exact ha
      · exact ih _ hrest r h2
    · rw [if_neg hio] at hr
      exact ih _ hrest r hr

theorem filedRecsOf_seq_ge :
    ∀ (reqs : List AppendReq) (s : Nat) (r : WalRec),
      r ∈ filedRecsOf reqs s → s ≤ r.seq := by
  intro reqs
  induction reqs with
  | nil => intro s r hr; cases hr
  | cons a rest ih =>
    intro s r hr
    rw [filedRecsOf] at hr
    by_cases hio : a.ioOk
    · rw [if_pos hio] at hr
      rcases List.mem_cons.mp hr with h1 | h2
      · subst h1; exact le_rfl
      · exact le_trans (by omega) (ih _ r h2)
    · rw [if_neg hio] at hr
      exact le_trans (by omega) (ih _ r hr)

theorem filedRecsOf_seq_lt :
    ∀ (reqs : List AppendReq) (s : Nat) (r : WalRec),
      r ∈ filedRecsOf reqs s → r.seq < s + reqs.length := by
  intro reqs
  induction reqs with
  | nil => intro s r hr; cases hr
  | cons a rest ih =>
    intro s r hr
    rw [filedRecsOf] at hr
    by_cases hio : a.ioOk
    · rw [if_pos hio] at hr
      rcases List.mem_cons.mp hr with h1 | h2
      · subst h1
        show s < s + (a :: rest).length
        simp only [List.length_cons]
        omega
      · have := ih _ r h2
        simp only [List.length_cons]
        omega
    · rw [if_neg hio] at hr
      have := ih _ r hr
      simp only [List.length_cons]
      omega

theorem filedRecsOf_chain :
    ∀ (reqs : List AppendReq) (s : Nat),
      List.Chain' (fun a b => a.seq < b.seq) (filedRecsOf reqs s) := by
  intro reqs
  induction reqs with
  | nil => intro s; exact List.chain'_nil
  | cons a rest ih =>
    intro s
    rw [filedRecsOf]
    by_cases hio : a.ioOk
    · rw [if_pos hio]
      rw [List.chain'_cons']
      refine ⟨?_, ih (s + 1)⟩
      intro y hy
      have hmem := List.mem_of_mem_head? hy
      have := filedRecsOf_seq_ge rest (s + 1) y hmem
      show s < y.seq
      omega
    · rw [if_neg hio]
      exact ih (s + 1)

theorem filedRecsOf_allOk :
    ∀ (reqs : List AppendReq) (s : Nat), (∀ a ∈ reqs, a.ioOk = true) →
      (filedRecsOf reqs s).map WalRec.seq = List.range' s reqs.length := by
  intro reqs
  induction reqs with
  | nil => intro s _; rfl
  | cons a rest ih =>
    intro s h
    rw [filedRecsOf, if_pos (h a (by simp)), List.map_cons,
      ih _ fun q hq => h q (List.mem_cons_of_mem _ hq)]
    rfl

theorem filedRecsOf_allFail :
    ∀ (reqs : List AppendReq) (s : Nat), (∀ a ∈ reqs, a.ioOk = false) →
      filedRecsOf reqs s = [] := by
  intro reqs
  induction reqs with
  | nil => intro s _; rfl
  | cons a rest ih =>
    intro s h
    rw [filedRecsOf, if_neg (by simp [h a (List.mem_cons_self a rest)])]
    exact ih _ fun q hq => h q (List.mem_cons_of_mem _ hq)

theorem runAppends_append (p q : List AppendReq) :
    ∀ w : Wal, runAppends w (p ++ q) = runAppends (runAppends w p) q := by
  induction p with
  | nil => intro w; rfl
  | cons a rest ih =>
    intro w
    show runAppends (writeEntry w a.op a.key a.value a.ts a.ioOk).1
        (rest ++ q) =
      runAppends
        (runAppends (writeEntry w a.op a.key a.value a.ts a.ioOk).1 rest) q
    exact ih _

theorem chain_succ_range (n : Nat) :
    List.Chain' (fun a b => b = a + 1) (List.range n) := by
  rw [List.chain'_iff_get]
  intro i h
  simp [List.get_eq_getElem, List.getElem_range]

/-- C5 (sequence monotonicity and gap-freedom): in any realizable run
of `writeEntry` calls from a fresh WAL — a block of successful appends
followed only by failing ones, since a failed stream's error flags are
sticky and make every later append fail as well — the sequence numbers
of the records present in the file are exactly `0, 1, …, n-1` in file
order: strictly increasing and gap-free, each record's sequence exactly
one more than its predecessor's, including across the appends whose
file write fails (those append nothing, and no later record lands after
them, so the sequence numbers they consume never surface as a gap in
the file). -/
theorem C5_sequence_gapfree (okReqs failReqs : List AppendReq)
    (hok : ∀ a ∈ okReqs, a.ioOk = true)
    (hfail : ∀ a ∈ failReqs, a.ioOk = false)
    (hlen : ∀ a ∈ okReqs, a.key.length < 2 ^ 64 ∧
      a.value.length < 2 ^ 64)
    (hn : okReqs.length ≤ 2 ^ 64) :
    walSeqList (runAppends walClear (okReqs ++ failReqs)).file =
        List.range okReqs.length ∧
      List.Chain' (fun a b => b = a + 1)
        (walSeqList (runAppends walClear (okReqs ++ failReqs)).file) ∧
      List.Chain' (fun a b => a < b)
        (walSeqList (runAppends walClear (okReqs ++ failReqs)).file) := by
  have h1 := runAppends_spec okReqs walClear
  have h2 := runAppends_spec failReqs (runAppends walClear okReqs)
  have hfile : (runAppends walClear (okReqs ++ failReqs)).file =
      encodeRecs (filedRecsOf okReqs 0) := by
    rw [runAppends_append, h2]
    show (runAppends walClear okReqs).file ++
        encodeRecs (filedRecsOf failReqs
          (runAppends walClear okReqs).nextSeq) = _
    rw [filedRecsOf_allFail failReqs _ hfail]
    show (runAppends walClear okReqs).file ++ [] = _
    rw [List.append_nil, h1]
    show [] ++ encodeRecs (filedRecsOf okReqs 0) = _
    rw [List.nil_append]
  have hseqs : walSeqList (runAppends walClear (okReqs ++ failReqs)).file =
      (filedRecsOf okReqs 0).map WalRec.seq := by
    rw [hfile, walSeqList,
      walRecords_encodeRecs _ (filedRecsOf_valid okReqs 0 hlen),
      List.map_map]
    refine List.map_congr_left fun r hr => ?_
    show r.seq % 2 ^ 64 = r.seq
    have hlt := filedRecsOf_seq_lt okReqs 0 r hr
    exact Nat.mod_eq_of_lt (by omega)
  have hrange : walSeqList (runAppends walClear (okReqs ++ failReqs)).file =
      List.range okReqs.length := by
    rw [hseqs, filedRecsOf_allOk okReqs 0 hok, List.range_eq_range']
  refine ⟨hrange, ?_, ?_⟩
  · rw [hrange]
    exact chain_succ_range okReqs.length
  · rw [hrange]
    exact List.Chain'.imp (fun a b hb => by omega)
      (chain_succ_range okReqs.length)

/-- Witness for C5: one successful append followed by one failing one
leaves exactly the record with sequence 0 in the file. -/
theorem C5_sequence_gapfree_witness :
    walSeqList (runAppends walClear
        ([⟨opPUT, [97], [98], 0, true⟩] ++
          [⟨opDELETE, [99], [], 1, false⟩])).file = List.range 1 :=
  (C5_sequence_gapfree [⟨opPUT, [97], [98], 0, true⟩]
    [⟨opDELETE, [99], [], 1, false⟩]
    (by decide) (by decide) (by decide) (by decide)).1

/-! ### Claim C6: bucket-level lemmas -/

theorem bucketFind_isSome_iff (k : List Nat) :
    ∀ b : List (List Nat × List Nat),
      (bucketFind k b).isSome = true ↔ k ∈ b.map Prod.fst := by
  intro b
  induction b with
  | nil => simp [bucketFind]
  | cons p rest ih =>
    by_cases h : p.1 = k
    · simp [bucketFind, h]
    · simp [bucketFind, h, ih, List.mem_cons, Ne.symm h]

theorem bucketInsert_found (k v : List Nat) :
    ∀ b, (bucketInsert k v b).2 = !(bucketFind k b).isSome := by
  intro b
  induction b with
  | nil => rfl
  | cons p rest ih =>
    by_cases h : p.1 = k
    · simp [bucketInsert, bucketFind, h]
    · simp [bucketInsert, bucketFind, h, ih]

theorem bucketInsert_length (k v : List Nat) :
    ∀ b, (bucketInsert k v b).1.length =
      if (bucketFind k b).isSome then b.length else b.length + 1 := by
  intro b
  induction b with
  | nil => rfl
  | cons p rest ih =>
    by_cases h : p.1 = k
    · simp [bucketInsert, bucketFind, h]
    · simp only [bucketInsert, bucketFind, if_neg h, List.length_cons, ih]
      by_cases hf : (bucketFind k rest).isSome <;> simp [hf]

theorem bucketInsert_keys (k v : List Nat) :
    ∀ b, (bucketInsert k v b).1.map Prod.fst =
      if (bucketFind k b).isSome then b.map Prod.fst
      else b.map Prod.fst ++ [k] := by
  intro b
  induction b with
  | nil => rfl
  | cons p rest ih =>
    by_cases h : p.1 = k
    · simp [bucketInsert, bucketFind, h]
    · simp only [bucketInsert, bucketFind, if_neg h, List.map_cons, ih]
      by_cases hf : (bucketFind k rest).isSome <;> simp [hf]

theorem bucketInsert_mem (k v : List Nat) :
    ∀ b p, p ∈ (bucketInsert k v b).1 → p.1 = k ∨ p ∈ b := by
  intro b
  induction b with
  | nil =>
    intro p hp
    rw [bucketInsert] at hp
    rcases List.mem_cons.mp hp with h1 | h2
    · subst h1; exact Or.inl rfl
    · cases h2
  | cons q rest ih =>
    intro p hp
    rw [bucketInsert] at hp
    by_cases h : q.1 = k
    · rw [if_pos h] at hp
      rcases List.mem_cons.mp hp with h1 | h2
      · subst h1; exact Or.inl h
      · exact Or.inr (List.mem_cons_of_mem _ h2)
    · rw [if_neg h] at hp
      rcases List.mem_cons.mp hp with h1 | h2
      · subst h1; exact Or.inr (List.mem_cons_self _ _)
      · rcases ih p h2 with h3 | h4
        · exact Or.inl h3
        · exact Or.inr (List.mem_cons_of_mem _ h4)

theorem bucketFind_insert_self (k v : List Nat) :
    ∀ b, bucketFind k (bucketInsert k v b).1 = some v := by
  intro b
  induction b with
  | nil => simp [bucketInsert, bucketFind]
  | cons p rest ih =>
    by_cases h : p.1 = k
    · simp [bucketInsert, bucketFind, h]
    · simp [bucketInsert, bucketFind, h, ih]

theorem bucketFind_insert_ne (k k2 v : List Nat) (hne : k2 ≠ k) :
    ∀ b, bucketFind k (bucketInsert k2 v b).1 = bucketFind k b := by
  intro b
  induction b with
  | nil => simp [bucketInsert, bucketFind, hne]
  | cons p rest ih =>
    by_cases h : p.1 = k2
    · have hpk : ¬ p.1 = k := by rw [h]; exact hne
      simp [bucketInsert, bucketFind, h, hpk, hne]
    · by_cases h2 : p.1 = k
      · simp [bucketInsert, bucketFind, h, h2, Ne.symm hne]
      · simp [bucketInsert, bucketFind, h, h2, ih]

theorem bucketErase_found (k : List Nat) :
    ∀ b, (bucketErase k b).2 = (bucketFind k b).isSome := by
  intro b
  induction b with
  | nil => rfl
  | cons p rest ih =>
    by_cases h : p.1 = k
    · simp [bucketErase, bucketFind, h]
    · simp [bucketErase, bucketFind, h, ih]

theorem bucketErase_length (k : List Nat) :
    ∀ b, (bucketErase k b).1.length =
      if (bucketFind k b).isSome then b.length - 1 else b.length := by
  intro b
  induction b with
  | nil => rfl
  | cons p rest ih =>
    by_cases h : p.1 = k
    · simp [bucketErase, bucketFind, h]
    · simp only [bucketErase, bucketFind, if_neg h, List.length_cons, ih]
      by_cases hf : (bucketFind k rest).isSome
      · have : 1 ≤ rest.length := by
          have := (bucketFind_isSome_iff k rest).mp hf
          cases rest with
          | nil => simp at this
          | cons q t => simp [List.length_cons]
        simp [hf]
        omega
      · simp [hf]

theorem bucketErase_keys (k : List Nat) :
    ∀ b, (bucketErase k b).1.map Prod.fst = (b.map Prod.fst).erase k := by
  intro b
  induction b with
  | nil => rfl
  | cons p rest ih =>
    by_cases h : p.1 = k
    · simp [bucketErase, List.erase_cons, h]
    · simp [bucketErase, List.erase_cons, h, ih]

theorem bucketErase_mem (k : List Nat) :
    ∀ b p, p ∈ (bucketErase k b).1 → p ∈ b := by
  intro b
  induction b with
  | nil => intro p hp; cases hp
  | cons q rest ih =>
    intro p hp
    rw [bucketErase] at hp
    by_cases h : q.1 = k
    · rw [if_pos h] at hp
      exact List.mem_cons_of_mem _ hp
    · rw [if_neg h] at hp
      rcases List.mem_cons.mp hp with h1 | h2
      · subst h1; exact List.mem_cons_self _ _
      · exact List.mem_cons_of_mem _ (ih p h2)

theorem bucketFind_erase_self (k : List Nat) :
    ∀ b, (b.map Prod.fst).Nodup → bucketFind k (bucketErase k b).1 = none := by
  intro b
  induction b with
  | nil => intro _; rfl
  | cons p rest ih =>
    intro hnd
    rw [List.map_cons, List.nodup_cons] at hnd
    by_cases h : p.1 = k
    · rw [bucketErase, if_pos h]
      show bucketFind k rest = none
      have hmem : k ∉ rest.map Prod.fst := h ▸ hnd.1
      rcases hf : bucketFind k rest with _ | v
      · rfl
      · exact absurd ((bucketFind_isSome_iff k rest).mp (by rw [hf]; rfl)) hmem
    · rw [bucketErase, if_neg h]
      show bucketFind k (p :: (bucketErase k rest).1) = none
      rw [bucketFind, if_neg h]
      exact ih hnd.2

theorem bucketFind_erase_ne (k k2 : List Nat) (hne : k2 ≠ k) :
    ∀ b, bucketFind k (bucketErase k2 b).1 = bucketFind k b := by
  intro b
  induction b with
  | nil => rfl
  | cons p rest ih =>
    by_cases h : p.1 = k2
    · have hpk : ¬ p.1 = k := by rw [h]; exact hne
      simp [bucketErase, bucketFind, h, hpk, hne]
    · by_cases h2 : p.1 = k
      · simp [bucketErase, bucketFind, h, h2, Ne.symm hne]
      · simp [bucketErase, bucketFind, h, h2, ih]

/-! ### Claim C6: list helpers -/

theorem getD_set_self {α : Type} (l : List α) (i : Nat) (b d : α)
    (h : i < l.length) : (l.set i b).getD i d = b := by
  induction l generalizing i with
  | nil => simp at h
  | cons a l ih =>
    cases i with
    | zero => rfl
    | succ i =>
      simp only [List.set, List.getD_cons_succ]
      exact ih i (by simpa using h)

theorem sum_map_set {α : Type} (f : α → Nat) :
    ∀ (l : List α) (i : Nat) (b d : α), i < l.length →
      ((l.set i b).map f).sum + f (l.getD i d) = (l.map f).sum + f b := by
  intro l
  induction l with
  | nil => intro i b d h; simp at h
  | cons a l ih =>
    intro i b d h
    cases i with
    | zero =>
      simp only [List.set, List.map_cons, List.sum_cons, List.getD_cons_zero]
      omega
    | succ i =>
      simp only [List.set, List.map_cons, List.sum_cons, List.getD_cons_succ]
      have := ih i b d (by simpa using h)
      omega

theorem getD_map_le_sum {α : Type} (f : α → Nat) :
    ∀ (l : List α) (i : Nat) (d : α), i < l.length →
      f (l.getD i d) ≤ (l.map f).sum := by
  intro l
  induction l with
  | nil => intro i d h; simp at h
  | cons a l ih =>
    intro i d h
    cases i with
    | zero => simp [List.getD_cons_zero]
    | succ i =>
      simp only [List.getD_cons_succ, List.map_cons, List.sum_cons]
      have := ih i d (by simpa using h)
      omega

theorem getD_replicate {α : Type} (n i : Nat) (c : α) :
    (List.replicate n c).getD i c = c := by
  induction n generalizing i with
  | zero => simp [List.replicate]
  | succ n ih =>
    cases i with
    | zero => rfl
    | succ i =>
      simp only [List.replicate, List.getD_cons_succ]
      exact ih i

/-! ### Claim C6: map-level lemmas -/

theorem mapInsert_buckets_length (k v : List Nat) (s : MapSt) :
    (mapInsert k v s).1.buckets.length = s.buckets.length := by
  simp [mapInsert, List.length_set]

theorem mapErase_buckets_length (k : List Nat) (s : MapSt) :
    (mapErase k s).1.buckets.length = s.buckets.length := by
  simp [mapErase, List.length_set]

theorem mapClear_buckets_length (s : MapSt) :
    (mapClear s).buckets.length = s.buckets.length := by
  simp [mapClear, List.length_replicate]

theorem mapFind_empty (k : List Nat) (n : Nat) :
    mapFind k (emptyMap n) = none := by
  rw [mapFind]
  show bucketFind k ((List.replicate n []).getD _ []) = none
  rw [getD_replicate]
  rfl

theorem mapFind_clear (k : List Nat) (s : MapSt) :
    mapFind k (mapClear s) = none := by
  rw [mapFind]
  show bucketFind k ((List.replicate s.buckets.length []).getD _ []) = none
  rw [getD_replicate]
  rfl

theorem mapInsert_count (k v : List Nat) (s : MapSt) :
    (mapInsert k v s).1.count =
      if (mapFind k s).isSome then s.count else s.count + 1 := by
  show (if (bucketInsert k v _).2 then s.count + 1 else s.count) = _
  rw [bucketInsert_found, mapFind]
  cases hf : (bucketFind k
      (s.buckets.getD (bucketIdx k s.buckets.length) [])).isSome <;>
    simp [hf]

theorem mapErase_count (k : List Nat) (s : MapSt) :
    (mapErase k s).1.count =
      if (mapFind k s).isSome then s.count - 1 else s.count := by
  show (if (bucketErase k _).2 then s.count - 1 else s.count) = _
  rw [bucketErase_found, mapFind]

theorem mapFind_insert (k k2 v : List Nat) (s : MapSt)
    (hp : 0 < s.buckets.length) :
    mapFind k (mapInsert k2 v s).1 =
      if k2 = k then some v else mapFind k s := by
  have hlt : bucketIdx k2 s.buckets.length < s.buckets.length :=
    Nat.mod_lt _ hp
  have hset : (mapInsert k2 v s).1.buckets =
      s.buckets.set (bucketIdx k2 s.buckets.length)
        (bucketInsert k2 v
          (s.buckets.getD (bucketIdx k2 s.buckets.length) [])).1 := rfl
  rw [mapFind, hset, List.length_set]
  by_cases hk : k2 = k
  · subst hk
    rw [if_pos rfl, getD_set_self _ _ _ _ hlt, bucketFind_insert_self]
  · rw [if_neg hk]
    by_cases hidx : bucketIdx k2 s.buckets.length = bucketIdx k s.buckets.length
    · rw [← hidx, getD_set_self _ _ _ _ hlt,
        bucketFind_insert_ne k k2 v hk, mapFind, hidx]
    · rw [getD_set_ne _ _ _ _ _ hidx, mapFind]

theorem mapFind_erase (k k2 : List Nat) (s : MapSt)
    (hp : 0 < s.buckets.length)
    (hnd : ∀ i, ((s.buckets.getD i []).map Prod.fst).Nodup) :
    mapFind k (mapErase k2 s).1 = if k2 = k then none else mapFind k s := by
  have hlt : bucketIdx k2 s.buckets.length < s.buckets.length :=
    Nat.mod_lt _ hp
  have hset : (mapErase k2 s).1.buckets =
      s.buckets.set (bucketIdx k2 s.buckets.length)
        (bucketErase k2
          (s.buckets.getD (bucketIdx k2 s.buckets.length) [])).1 := rfl
  rw [mapFind, hset, List.length_set]
  by_cases hk : k2 = k
  · subst hk
    rw [if_pos rfl, getD_set_self _ _ _ _ hlt,
      bucketFind_erase_self k2 _ (hnd _)]
  · rw [if_neg hk]
    by_cases hidx : bucketIdx k2 s.buckets.length = bucketIdx k s.buckets.length
    · rw [← hidx, getD_set_self _ _ _ _ hlt,
        bucketFind_erase_ne k k2 hk, mapFind, hidx]
    · rw [getD_set_ne _ _ _ _ _ hidx, mapFind]

/-! ### Claim C6: preservation of well-formedness -/

theorem MapWF_empty (n : Nat) : MapWF (emptyMap n) := by
  refine ⟨?_, ?_, ?_⟩
  · show (0 : Nat) = ((List.replicate n []).map List.length).sum
    simp [List.map_replicate, List.sum_replicate]
  · intro i
    show (((List.replicate n []).getD i []).map Prod.fst).Nodup
    rw [getD_replicate]
    exact List.nodup_nil
  · intro i p hp
    rw [show (emptyMap n).buckets = List.replicate n [] from rfl,
      getD_replicate] at hp
    cases hp

theorem MapWF_clear (s : MapSt) : MapWF (mapClear s) :=
  MapWF_empty s.buckets.length

theorem MapWF_insert (k v : List Nat) (s : MapSt) (hwf : MapWF s)
    (hp : 0 < s.buckets.length) : MapWF (mapInsert k v s).1 := by
  obtain ⟨hc, hnd, hidx⟩ := hwf
  have hlt : bucketIdx k s.buckets.length < s.buckets.length :=
    Nat.mod_lt _ hp
  have hset : (mapInsert k v s).1.buckets =
      s.buckets.set (bucketIdx k s.buckets.length)
        (bucketInsert k v
          (s.buckets.getD (bucketIdx k s.buckets.length) [])).1 := rfl
  refine ⟨?_, ?_, ?_⟩
  · show (if (bucketInsert k v _).2 then s.count + 1 else s.count) =
      ((mapInsert k v s).1.buckets.map List.length).sum
    rw [hset, bucketInsert_found]
    have e1 := sum_map_set List.length s.buckets
      (bucketIdx k s.buckets.length)
      (bucketInsert k v
        (s.buckets.getD (bucketIdx k s.buckets.length) [])).1 [] hlt
    have e2 := bucketInsert_length k v
      (s.buckets.getD (bucketIdx k s.buckets.length) [])
    cases hf : (bucketFind k
        (s.buckets.getD (bucketIdx k s.buckets.length) [])).isSome
    · rw [hf] at e2
      rw [if_neg (by simp)] at e2
      rw [if_pos (show (!false) = true from rfl)]
      omega
    · rw [hf] at e2
      rw [if_pos rfl] at e2
      rw [if_neg (by simp)]
      omega
  · intro i
    rw [hset]
    by_cases hi : bucketIdx k s.buckets.length = i
    · subst hi
      rw [getD_set_self _ _ _ _ hlt, bucketInsert_keys]
      cases hf : (bucketFind k
          (s.buckets.getD (bucketIdx k s.buckets.length) [])).isSome
      · rw [if_neg (by simp [hf])]
        have hnk : k ∉ (s.buckets.getD (bucketIdx k s.buckets.length)
            []).map Prod.fst := by
          intro hmem
          rw [← bucketFind_isSome_iff] at hmem
          rw [hf] at hmem
          cases hmem
        rw [List.nodup_append]
        refine ⟨hnd _, List.nodup_singleton k, ?_⟩
        intro a ha hak
        rw [List.mem_singleton] at hak
        subst hak
        exact hnk ha
      · rw [if_pos (by simp [hf])]
        exact hnd _
    · rw [getD_set_ne _ _ _ _ _ hi]
      exact hnd i
  · intro i p hp2
    rw [hset] at hp2
    rw [show (mapInsert k v s).1.buckets.length = s.buckets.length from
      mapInsert_buckets_length k v s]
    by_cases hi : bucketIdx k s.buckets.length = i
    · subst hi
      rw [getD_set_self _ _ _ _ hlt] at hp2
      rcases bucketInsert_mem k v _ p hp2 with h1 | h2
      · rw [h1]
      · exact hidx _ p h2
    · rw [getD_set_ne _ _ _ _ _ hi] at hp2
      exact hidx i p hp2

theorem MapWF_erase (k : List Nat) (s : MapSt) (hwf : MapWF s)
    (hp : 0 < s.buckets.length) : MapWF (mapErase k s).1 := by
  obtain ⟨hc, hnd, hidx⟩ := hwf
  have hlt : bucketIdx k s.buckets.length < s.buckets.length :=
    Nat.mod_lt _ hp
  have hset : (mapErase k s).1.buckets =
      s.buckets.set (bucketIdx k s.buckets.length)
        (bucketErase k
          (s.buckets.getD (bucketIdx k s.buckets.length) [])).1 := rfl
  refine ⟨?_, ?_, ?_⟩
  · show (if (bucketErase k _).2 then s.count - 1 else s.count) =
      ((mapErase k s).1.buckets.map List.length).sum
    rw [hset, bucketErase_found]
    have e1 := sum_map_set List.length s.buckets
      (bucketIdx k s.buckets.length)
      (bucketErase k
        (s.buckets.getD (bucketIdx k s.buckets.length) [])).1 [] hlt
    have e2 := bucketErase_length k
      (s.buckets.getD (bucketIdx k s.buckets.length) [])
    have e3 := getD_map_le_sum List.length s.buckets
      (bucketIdx k s.buckets.length) [] hlt
    cases hf : (bucketFind k
        (s.buckets.getD (bucketIdx k s.buckets.length) [])).isSome
    · rw [hf] at e2
      rw [if_neg (by simp)] at e2
      rw [if_neg (by simp)]
      omega
    · rw [hf] at e2
      rw [if_pos rfl] at e2
      have hlen1 : 1 ≤ (s.buckets.getD (bucketIdx k s.buckets.length)
          []).length := by
        have hmem := (bucketFind_isSome_iff k _).mp hf
        cases hb : s.buckets.getD (bucketIdx k s.buckets.length) [] with
        | nil =>
          rw [hb] at hmem
          simp at hmem
        | cons q t => exact Nat.le_add_left 1 t.length
      rw [if_pos rfl]
      omega
  · intro i
    rw [hset]
    by_cases hi : bucketIdx k s.buckets.length = i
    · subst hi
      rw [getD_set_self _ _ _ _ hlt, bucketErase_keys]
      exact (hnd _).erase k
    · rw [getD_set_ne _ _ _ _ _ hi]
      exact hnd i
  · intro i p hp2
    rw [hset] at hp2
    rw [show (mapErase k s).1.buckets.length = s.buckets.length from
      mapErase_buckets_length k s]
    by_cases hi : bucketIdx k s.buckets.length = i
    · subst hi
      rw [getD_set_self _ _ _ _ hlt] at hp2
      exact hidx _ p (bucketErase_mem k _ p hp2)
    · rw [getD_set_ne _ _ _ _ _ hi] at hp2
      exact hidx i p hp2

theorem applyMOp_WF (s : MapSt) (op : MOp) (hwf : MapWF s)
    (hp : 0 < s.buckets.length) :
    MapWF (applyMOp s op) ∧
      (applyMOp s op).buckets.length = s.buckets.length := by
  cases op with
  | ins k v => exact ⟨MapWF_insert k v s hwf hp, mapInsert_buckets_length k v s⟩
  | er k => exact ⟨MapWF_erase k s hwf hp, mapErase_buckets_length k s⟩
  | clr => exact ⟨MapWF_clear s, mapClear_buckets_length s⟩

theorem applyMOps_WF (ops : List MOp) :
    ∀ s : MapSt, MapWF s → 0 < s.buckets.length →
      MapWF (applyMOps s ops) ∧
        (applyMOps s ops).buckets.length = s.buckets.length := by
  induction ops with
  | nil => intro s hwf _; exact ⟨hwf, rfl⟩
  | cons op rest ih =>
    intro s hwf hp
    have h1 := applyMOp_WF s op hwf hp
    have h2 := ih (applyMOp s op) h1.1 (by rw [h1.2]; exact hp)
    rw [show applyMOps s (op :: rest) = applyMOps (applyMOp s op) rest from
      rfl]
    exact ⟨h2.1, by rw [h2.2, h1.2]⟩

/-! ### Claim C6: the counter counts the distinct present keys -/

theorem count_eq_presentKeys (s : MapSt) (hwf : MapWF s) :
    s.count = (presentKeys s).length := by
  rw [hwf.1, presentKeys, List.length_flatten, List.map_map]
  congr 1
  refine List.map_congr_left fun (b : List (List Nat × List Nat)) _ => ?_
  show b.length = (b.map Prod.fst).length
  rw [List.length_map]

theorem getD_of_getElem {α : Type} (l : List α) (i : Nat) (d : α)
    (h : i < l.length) : l.getD i d = l[i] := by
  rw [List.getD_eq_getElem?_getD, List.getElem?_eq_getElem h]
  rfl

theorem presentKeys_mem (s : MapSt) (hwf : MapWF s) (k : List Nat) :
    k ∈ presentKeys s ↔ (mapFind k s).isSome = true := by
  obtain ⟨hc, hnd, hidx⟩ := hwf
  constructor
  · intro hk
    rw [presentKeys, List.mem_flatten] at hk
    obtain ⟨l, hl, hkl⟩ := hk
    rw [List.mem_map] at hl
    obtain ⟨b, hb, rfl⟩ := hl
    obtain ⟨i, hi, hbi⟩ := List.mem_iff_getElem.mp hb
    have hgd : s.buckets.getD i [] = b := by
      rw [getD_of_getElem _ _ _ hi, hbi]
    rw [List.mem_map] at hkl
    obtain ⟨p, hpb, hpk⟩ := hkl
    have hik : bucketIdx k s.buckets.length = i := by
      rw [← hpk]
      exact hidx i p (by rw [hgd]; exact hpb)
    rw [mapFind, hik, hgd, bucketFind_isSome_iff, List.mem_map]
    exact ⟨p, hpb, hpk⟩
  · intro hfind
    rw [mapFind, bucketFind_isSome_iff] at hfind
    by_cases hlt : bucketIdx k s.buckets.length < s.buckets.length
    · rw [presentKeys, List.mem_flatten]
      refine ⟨(s.buckets.getD (bucketIdx k s.buckets.length) []).map
        Prod.fst, ?_, hfind⟩
      rw [List.mem_map]
      refine ⟨s.buckets.getD (bucketIdx k s.buckets.length) [], ?_, rfl⟩
      rw [getD_of_getElem _ _ _ hlt]
      exact List.getElem_mem hlt
    · rw [List.getD_eq_default _ _ (Nat.not_lt.mp hlt)] at hfind
      simp at hfind

theorem presentKeys_nodup (s : MapSt) (hwf : MapWF s) :
    (presentKeys s).Nodup := by
  obtain ⟨hc, hnd, hidx⟩ := hwf
  rw [presentKeys, List.nodup_flatten]
  constructor
  · intro l hl
    rw [List.mem_map] at hl
    obtain ⟨b, hb, rfl⟩ := hl
    obtain ⟨i, hi, hbi⟩ := List.mem_iff_getElem.mp hb
    have hgd : s.buckets.getD i [] = b := by
      rw [getD_of_getElem _ _ _ hi, hbi]
    rw [← hgd]
    exact hnd i
  · rw [List.pairwise_iff_getElem]
    intro i j hi hj hij
    rw [List.length_map] at hi hj
    intro a hai haj
    rw [List.getElem_map] at hai haj
    rw [List.mem_map] at hai haj
    obtain ⟨p, hpi, hpa⟩ := hai
    obtain ⟨q, hqj, hqa⟩ := haj
    have h1 : bucketIdx a s.buckets.length = i := by
      rw [← hpa]
      exact hidx i p (by rw [getD_of_getElem _ _ _ hi]; exact hpi)
    have h2 : bucketIdx a s.buckets.length = j := by
      rw [← hqa]
      exact hidx j q (by rw [getD_of_getElem _ _ _ hj]; exact hqj)
    omega

/-! ### Claim C6: trace correspondence -/

theorem mapFind_applyMOp (s : MapSt) (k : List Nat) (op : MOp)
    (hwf : MapWF s) (hp : 0 < s.buckets.length) :
    (mapFind k (applyMOp s op)).isSome =
      presentStep k ((mapFind k s).isSome) op := by
  cases op with
  | ins k2 v =>
    show (mapFind k (mapInsert k2 v s).1).isSome = _
    rw [mapFind_insert k k2 v s hp]
    by_cases h : k2 = k <;> simp [presentStep, h]
  | er k2 =>
    show (mapFind k (mapErase k2 s).1).isSome = _
    rw [mapFind_erase k k2 s hp hwf.2.1]
    by_cases h : k2 = k <;> simp [presentStep, h]
  | clr =>
    show (mapFind k (mapClear s)).isSome = _
    rw [mapFind_clear]
    rfl

theorem mapFind_applyMOps (ops : List MOp) :
    ∀ (s : MapSt) (k : List Nat), MapWF s → 0 < s.buckets.length →
      (mapFind k (applyMOps s ops)).isSome =
        ops.foldl (presentStep k) ((mapFind k s).isSome) := by
  induction ops with
  | nil => intro s k _ _; rfl
  | cons op rest ih =>
    intro s k hwf hp
    have h1 := applyMOp_WF s op hwf hp
    rw [show applyMOps s (op :: rest) = applyMOps (applyMOp s op) rest from
      rfl]
    rw [ih (applyMOp s op) k h1.1 (by rw [h1.2]; exact hp)]
    rw [List.foldl_cons, mapFind_applyMOp s k op hwf hp]

/-! ### Claim C6: the size law -/

/-- C6 (size law): after any sequence of insert, erase and clear
operations starting from an empty map with at least one bucket,
`item_count` equals the number of distinct keys present — the keys of
all buckets, which are distinct and are exactly the keys whose last
touching operation in the trace is an insert.  Moreover insert
increments the counter exactly when the key was absent, erase
decrements it exactly when the key was present, and clear resets it
to 0. -/
theorem C6_size_law (n : Nat) (hn : 1 ≤ n) (ops : List MOp) :
    (applyMOps (emptyMap n) ops).count =
        (presentKeys (applyMOps (emptyMap n) ops)).length ∧
      (presentKeys (applyMOps (emptyMap n) ops)).Nodup ∧
      (∀ k, k ∈ presentKeys (applyMOps (emptyMap n) ops) ↔
        presentAfter ops k = true) ∧
      (∀ k v, (mapInsert k v (applyMOps (emptyMap n) ops)).1.count =
        if (mapFind k (applyMOps (emptyMap n) ops)).isSome
        then (applyMOps (emptyMap n) ops).count
        else (applyMOps (emptyMap n) ops).count + 1) ∧
      (∀ k, (mapErase k (applyMOps (emptyMap n) ops)).1.count =
        if (mapFind k (applyMOps (emptyMap n) ops)).isSome
        then (applyMOps (emptyMap n) ops).count - 1
        else (applyMOps (emptyMap n) ops).count) ∧
      (mapClear (applyMOps (emptyMap n) ops)).count = 0 := by
  have hpe : 0 < (emptyMap n).buckets.length := by
    show 0 < (List.replicate n ([] : List (List Nat × List Nat))).length
    rw [List.length_replicate]
    omega
  have hwf := applyMOps_WF ops (emptyMap n) (MapWF_empty n) hpe
  refine ⟨count_eq_presentKeys _ hwf.1, presentKeys_nodup _ hwf.1, ?_,
    fun k v => mapInsert_count k v _, fun k => mapErase_count k _, rfl⟩
  intro k
  rw [presentKeys_mem _ hwf.1 k,
    mapFind_applyMOps ops (emptyMap n) k (MapWF_empty n) hpe,
    mapFind_empty, presentAfter]
  exact Iff.rfl

/-- Witness for C6: insert, overwrite, insert another key, erase, on a
4-bucket map. -/
theorem C6_size_law_witness :
    (applyMOps (emptyMap 4)
          [MOp.ins [97] [1], MOp.ins [97] [2], MOp.ins [98] [3],
            MOp.er [97]]).count =
        (presentKeys (applyMOps (emptyMap 4)
          [MOp.ins [97] [1], MOp.ins [97] [2], MOp.ins [98] [3],
            MOp.er [97]])).length ∧
      ([98] ∈ presentKeys (applyMOps (emptyMap 4)
          [MOp.ins [97] [1], MOp.ins [97] [2], MOp.ins [98] [3],
            MOp.er [97]]) ↔
        presentAfter [MOp.ins [97] [1], MOp.ins [97] [2], MOp.ins [98] [3],
            MOp.er [97]] [98] = true) :=
  have h := C6_size_law 4 (by decide)
    [MOp.ins [97] [1], MOp.ins [97] [2], MOp.ins [98] [3], MOp.er [97]]
  ⟨h.1, h.2.2.1 [98]⟩

end KVStore
